import Mathlib

/-!
# Verification of the Pit game engine (synchronous draft)

Shallow embedding of `src/pit/sync/gameengine.py` together with the static
configuration from `src/pit/config.py`.  Cards are modelled by an inductive
type whose constructors are exactly the ten card strings the configuration
defines (eight commodities plus `bull` and `bear`); hands are lists of cards
(multisets with an incidental order, as Python lists are); the per-round
game state is a structure holding the cycle counter, the `in_play` flag,
the active offers, the hands and the scores.  Player policies enter only
through the one callback whose return value the engine consumes,
`response_made`, which is passed in as a function argument.  A Python
exception escaping the engine (e.g. `list.remove` on an absent element) is
modelled by the `error` branch of `Except`, carrying the state at the point
the exception was raised.
-/

namespace Pit

/-- The card domain: the eight commodities of `config.COMMODITIES` plus the
`bull` and `bear` special cards. -/
inductive Card where
  | wheat | barley | coffee | corn | sugar | oats | soybeans | oranges
  | bull | bear
deriving DecidableEq, Repr, Fintype

open Card

/-- `config.COMMODITIES`: commodity → base score value, in source order. -/
def COMMODITIES : List (Card × Int) :=
  [(wheat, 100), (barley, 85), (coffee, 80), (corn, 75),
   (sugar, 65), (oats, 60), (soybeans, 55), (oranges, 50)]

/-- `config.WINNING_SCORE` -/
def WINNING_SCORE : Int := 500

/-- `config.COMMODITIES_PER_HAND` -/
def COMMODITIES_PER_HAND : Nat := 9

/-- `config.BULL` -/
def BULL : Card := bull

/-- `config.BULL_PENALTY` -/
def BULL_PENALTY : Int := 20

/-- `config.BEAR` -/
def BEAR : Card := bear

/-- `config.BEAR_PENALTY` -/
def BEAR_PENALTY : Int := 20

/-- `OFFER_CYCLES`: number of cycles before an offer expires. -/
def OFFER_CYCLES : Nat := 10

/-- `GameEngine.still_has_cards`: copies the player's hand and removes the
claimed cards one at a time, failing as soon as one is absent.  This is a
multiset-inclusion check (duplicates counted) that leaves the real hand
untouched. -/
def still_has_cards (hand : List Card) : List Card → Bool
  | [] => true
  | c :: rest => if c ∈ hand then still_has_cards (hand.erase c) rest else false

/-- The Python expression `max(set(cards), key=cards.count)` appearing in
`has_winning_hand` and `update_scores`: some element of the hand of maximal
multiplicity.  Python iterates the set in an unspecified (hash) order; any
tie-break rule agrees whenever the modal card is unique, which we prove for
the hands the claims are about. -/
def modal_card (cards : List Card) : Card :=
  (cards.argmax fun c => cards.count c).getD bull

/-- `cards.count(max(set(cards), key=cards.count))`: the size of the largest
group of identical cards in the hand. -/
def largest_group (cards : List Card) : Nat :=
  cards.count (modal_card cards)

/-- `GameEngine.has_winning_hand` on a hand: Bear must be absent and the
largest group must be 9, or 8 with the Bull present. -/
def has_winning_hand (cards : List Card) : Bool :=
  if BEAR ∈ cards then false
  else largest_group cards == 9 || (largest_group cards == 8 && decide (BULL ∈ cards))

/-- The per-player body of `GameEngine.update_scores`: the round score of a
final hand.  `config.COMMODITIES[commodity]` would raise `KeyError` were the
modal card not a commodity; that needs at least eight copies of `bull` or
`bear` in one hand and is unreachable in play (one copy of each exists), so
the lookup is totalised with a default of 0. -/
def score_hand (cards : List Card) : Int :=
  if has_winning_hand cards then
    let commodity := modal_card cards
    let base := ((COMMODITIES.lookup commodity).getD 0)
    if BULL ∈ cards ∧ cards.count commodity = COMMODITIES_PER_HAND then base * 2
    else base
  else
    (if BULL ∈ cards then -BULL_PENALTY else 0) +
      (if BEAR ∈ cards then -BEAR_PENALTY else 0)

/-- The `Offer` action: initiator (a seat index), quantity, and the cycle
stamp the engine sets.  Python compares offers by object identity; offers are
value-compared here, which agrees on all states the claims construct. -/
structure Offer where
  player : Nat
  quantity : Nat
  cycle : Nat
deriving DecidableEq, Repr

/-- The `Response` action: the offer responded to, the responder's seat, the
cards put up, and the engine's cycle stamp. -/
structure Response where
  offer : Offer
  player : Nat
  cards : List Card
  cycle : Nat
deriving DecidableEq, Repr

/-- The per-round slice of `game_state` the claims touch: the cycle counter,
the `in_play` flag, the active offers, and per-seat hands and scores. -/
structure GameState where
  cycle : Nat
  inPlay : Bool
  offers : List Offer
  hands : List (List Card)
  scores : List Int
deriving DecidableEq, Repr

/-- `game_state[player]['cards']` for a seat index. -/
def getHand (st : GameState) (p : Nat) : List Card :=
  st.hands.getD p []

/-- Replace one seat's hand. -/
def setHand (st : GameState) (p : Nat) (h : List Card) : GameState :=
  { st with hands := st.hands.set p h }

/-- `GameEngine.add_offer`: stamp the offer with the current cycle and append
it to the active offers (all players are then notified of the offer). -/
def add_offer (st : GameState) (off : Offer) : GameState :=
  { st with offers := st.offers ++ [{ off with cycle := st.cycle }] }

/-- `GameEngine.ring_bell`: all players hear the closing bell; if the ringer
holds a winning hand, `in_play` is cleared and the win is confirmed. -/
def ring_bell (st : GameState) (ringer : Nat) : GameState :=
  if has_winning_hand (getHand st ringer) then { st with inPlay := false } else st

/-- One iteration of a transfer loop in `GameEngine.confirm`:
`hands[src].remove(card); hands[dst].append(card)`.  `list.remove` raises
`ValueError` when the card is absent, modelled as `none`. -/
def move_card (st : GameState) (src dst : Nat) (c : Card) : Option GameState :=
  if c ∈ getHand st src then
    let st1 := setHand st src ((getHand st src).erase c)
    some (setHand st1 dst (getHand st1 dst ++ [c]))
  else none

/-- A whole transfer loop of `GameEngine.confirm`.  On a raised exception the
`error` branch carries the state at the raise — the earlier iterations'
moves have already been applied. -/
def move_cards (st : GameState) (src dst : Nat) : List Card → Except GameState GameState
  | [] => .ok st
  | c :: rest =>
    match move_card st src dst c with
    | some st2 => move_cards st2 src dst rest
    | none => .error st

/-- `GameEngine.confirm`: drop the offer from the active list, move the
response cards from responder to initiator, then the confirm cards from
initiator to responder (then both traders are notified). -/
def confirm (st : GameState) (resp : Response)
    (response_cards confirm_cards : List Card) : Except GameState GameState :=
  match move_cards { st with offers := st.offers.erase resp.offer }
      resp.player resp.offer.player response_cards with
  | .error s => .error s
  | .ok st2 => move_cards st2 resp.offer.player resp.player confirm_cards

/-- Outcome of `GameEngine.send_response`: the responder is told of a
rejection, a trade is confirmed, or an uncaught exception escapes (carrying
the state at the raise). -/
inductive RespResult where
  | rejected (st : GameState)
  | confirmed (st : GameState)
  | crashed (st : GameState)
deriving DecidableEq, Repr

/-- `GameEngine.send_response`.  The response is stamped and its cards are
grabbed; if the offer is still active, the responder is not the offer's own
initiator and the responder still holds the claimed cards, the offer's
initiator is asked (callback `response_made`, the `rm` argument) for
matching cards; a non-empty answer goes to `confirm` unchecked, anything
else is a rejection. -/
def send_response (st : GameState) (resp : Response)
    (rm : Nat → Response → Option (List Card)) : RespResult :=
  if resp.offer ∈ st.offers ∧ resp.player ≠ resp.offer.player ∧
      still_has_cards (getHand st resp.player) resp.cards then
    match rm resp.offer.player { resp with cards := [], cycle := st.cycle } with
    | some confirm_cards =>
      if confirm_cards ≠ [] then
        match confirm st { resp with cards := [], cycle := st.cycle }
            resp.cards confirm_cards with
        | .ok st2 => .confirmed st2
        | .error s => .crashed s
      else .rejected st
    | none => .rejected st
  else .rejected st

/-- The three action kinds dispatched through `GameEngine.ACTION_METHODS`. -/
inductive Action where
  | offer (off : Offer)
  | response (resp : Response)
  | bellRing (player : Nat)
deriving DecidableEq, Repr

/-- `GameEngine.process_action`: dispatch on the action type.  An exception
escaping `send_response` propagates. -/
def process_action (rm : Nat → Response → Option (List Card))
    (st : GameState) : Action → Except GameState GameState
  | .offer off => .ok (add_offer st off)
  | .response resp =>
    match send_response st resp rm with
    | .rejected s => .ok s
    | .confirmed s => .ok s
    | .crashed s => .error s
  | .bellRing p => .ok (ring_bell st p)

/-- `GameEngine.expired_offer`: an offer stamped in cycle `c` lives through
cycle `c + OFFER_CYCLES`. -/
def expired_offer (cycle : Nat) (off : Offer) : Bool :=
  (cycle : Int) - (off.cycle : Int) > (OFFER_CYCLES : Int)

/-- `GameEngine.clean_actions`: keep the unexpired offers; each dropped
offer's initiator is notified of the expiry (the second component lists the
offers so notified). -/
def clean_actions (st : GameState) : GameState × List Offer :=
  ({ st with offers := st.offers.filter fun o => !expired_offer st.cycle o },
   st.offers.filter fun o => expired_offer st.cycle o)

/-- `GameEngine.one_cycle` from the randomized action list onward: dispatch
each action in order; as soon as `in_play` is false after an action, return
without advancing the cycle counter and without sweeping; once all actions
are done, advance the counter and sweep expired offers. -/
def one_cycle (rm : Nat → Response → Option (List Card)) :
    GameState → List Action → Except GameState (GameState × List Offer)
  | st, [] => .ok (clean_actions { st with cycle := st.cycle + 1 })
  | st, a :: rest =>
    match process_action rm st a with
    | .error s => .error s
    | .ok st2 => if st2.inPlay then one_cycle rm st2 rest else .ok (st2, [])

/-- `config.COMMODITIES.keys()`: the commodity cards (source order; the
Python 2 dict iterates its keys in an unspecified hash order, so the deal
theorems quantify over an arbitrary duplicate-free commodity key list and
this concrete one is used for evaluation). -/
def commodity_keys : List Card :=
  COMMODITIES.map Prod.fst

/-- The deck built by `GameEngine.deal_cards` before shuffling, from a given
key list: `[BULL, BEAR]` then nine copies of each key. -/
def make_deck_from (keys : List Card) : List Card :=
  [BULL, BEAR] ++ (keys.map fun c => List.replicate 9 c).flatten

/-- The deck for `n` players with the source-order keys:
`COMMODITIES.keys()[:n]` truncates silently, so more than eight players
still yields only the eight commodities' cards. -/
def make_deck (n : Nat) : List Card :=
  make_deck_from (commodity_keys.take n)

/-- The seat receiving a leftover card: `dealer + k`, reduced once by the
player count when it runs past the end (`k` is 1 or 2 in the source). -/
def extra_seat (dealer k n : Nat) : Nat :=
  if dealer + k ≥ n then dealer + k - n else dealer + k

/-- `GameEngine.deal_cards` after the shuffle, as a function of the shuffled
deck: seat `i` gets `cards[i*9 : i*9+9]`, then `cards[-2]` is appended to
seat `dealer+1` and `cards[-1]` to seat `dealer+2` (wrapped). -/
def deal_hands (deck : List Card) (n dealer : Nat) : List (List Card) :=
  let base := (List.range n).map fun i => (deck.drop (9 * i)).take 9
  let e1 := extra_seat dealer 1 n
  let e2 := extra_seat dealer 2 n
  let withE1 := base.set e1 (base.getD e1 [] ++ (deck.drop (deck.length - 2)).take 1)
  withE1.set e2 (withE1.getD e2 [] ++ (deck.drop (deck.length - 1)).take 1)

/-- The loop body sequence of `GameEngine.update_scores` over `(hand, score)`
pairs carrying the running seat index: each player's round score is added to
the cumulative score, and every player reaching `WINNING_SCORE` overwrites
`self.winner`. -/
def update_scores_aux : List (List Card × Int) → Nat → Option Nat → List Int × Option Nat
  | [], _, w => ([], w)
  | (hand, sc) :: rest, i, w =>
    let sc2 := sc + score_hand hand
    let w2 := if sc2 ≥ WINNING_SCORE then some i else w
    let r := update_scores_aux rest (i + 1) w2
    (sc2 :: r.1, r.2)

/-- `GameEngine.update_scores` on the hands and cumulative scores, returning
the new scores and the (possibly overwritten) winner. -/
def update_scores (hands : List (List Card)) (scores : List Int)
    (w : Option Nat) : List Int × Option Nat :=
  update_scores_aux (hands.zip scores) 0 w

/-- The round loop of `GameEngine.one_game`, abstracted over the final hands
each successive round would produce: play rounds until `update_scores` sets
a winner, returning the winner and the scores at that point (`None` when the
supplied rounds run out with no winner). -/
def play_rounds : List (List (List Card)) → List Int → Option (Nat × List Int)
  | [], _ => none
  | hs :: rest, scores =>
    let r := update_scores hs scores none
    match r.2 with
    | some p => some (p, r.1)
    | none => play_rounds rest r.1

/-- A prefix of a cycle's permuted action sequence executing without ending
the round: every action dispatches without an exception and leaves
`in_play` set, ending in the given state.  Used to state the mid-cycle
short-circuit property about `one_cycle`. -/
def dispatch_seq (rm : Nat → Response → Option (List Card)) :
    GameState → List Action → Option GameState
  | st, [] => some st
  | st, a :: rest =>
    match process_action rm st a with
    | .ok st2 => if st2.inPlay then dispatch_seq rm st2 rest else none
    | .error _ => none

/-- The winning-hand characterization claimed for `has_winning_hand`,
together with the facts making `largest_group` "the modal count" (it bounds
every card's multiplicity and is attained by a card of the hand), and the
spec's four concrete test cases. -/
def WinningHandSpec (cards : List Card) : Prop :=
  (has_winning_hand cards = true ↔
    BEAR ∉ cards ∧
      (largest_group cards = 9 ∨ (largest_group cards = 8 ∧ BULL ∈ cards))) ∧
  (∀ c ∈ cards, cards.count c ≤ largest_group cards) ∧
  modal_card cards ∈ cards ∧
  largest_group cards = cards.count (modal_card cards) ∧
  has_winning_hand (List.replicate 9 wheat) = true ∧
  has_winning_hand (bull :: List.replicate 8 wheat) = true ∧
  has_winning_hand (bear :: bull :: List.replicate 8 wheat) = false ∧
  has_winning_hand (bear :: List.replicate 9 wheat) = false

/-- The end-of-round scoring rule claimed for a final hand whose modal card
is `m`: a winning hand scores the modal card's table value, doubled exactly
when the hand has nine of it and the Bull; a losing hand takes the Bull and
Bear penalties independently and cumulatively.  Includes the spec's four
concrete scoring cases. -/
def ScoreSpec (cards : List Card) (m : Card) : Prop :=
  (has_winning_hand cards = true →
    score_hand cards =
      if BULL ∈ cards ∧ cards.count m = COMMODITIES_PER_HAND
      then ((COMMODITIES.lookup m).getD 0) * 2
      else (COMMODITIES.lookup m).getD 0) ∧
  (has_winning_hand cards = false →
    score_hand cards =
      (if BULL ∈ cards then -BULL_PENALTY else 0) +
        (if BEAR ∈ cards then -BEAR_PENALTY else 0)) ∧
  score_hand (List.replicate 9 wheat) = 100 ∧
  score_hand (bull :: List.replicate 9 wheat) = 200 ∧
  score_hand [bull] = -BULL_PENALTY ∧
  score_hand [bull, bear] = -(BULL_PENALTY + BEAR_PENALTY)

/-- The responder-side rejection behaviour claimed of `send_response`: the
response is rejected with the state returned untouched (hands, offers,
scores all unchanged, no exception), and `still_has_cards` is exactly a
duplicate-counting membership check against the current hand. -/
def RejectSpec (st : GameState) (resp : Response)
    (rm : Nat → Response → Option (List Card)) : Prop :=
  send_response st resp rm = .rejected st ∧
  ∀ hand cs : List Card,
    (still_has_cards hand cs = true ↔ ∀ c : Card, cs.count c ≤ hand.count c)

/-- The offer-expiry window claimed for an active offer: it survives every
sweep run at a cycle up to `created + OFFER_CYCLES` (and is not reported
expired), the sweep at `created + OFFER_CYCLES + 1` drops it and notifies
its initiator, expiry is exactly `age > OFFER_CYCLES`, and `add_offer`
stamps an offer with the cycle it is made in. -/
def ExpirySpec (st : GameState) (off : Offer) : Prop :=
  (st.cycle ≤ off.cycle + OFFER_CYCLES →
    off ∈ (clean_actions st).1.offers ∧ off ∉ (clean_actions st).2) ∧
  (st.cycle = off.cycle + OFFER_CYCLES + 1 →
    off ∉ (clean_actions st).1.offers ∧ off ∈ (clean_actions st).2) ∧
  (expired_offer st.cycle off = true ↔
    (st.cycle : Int) - (off.cycle : Int) > (OFFER_CYCLES : Int)) ∧
  (∀ st' : GameState, ∀ off0 : Offer,
    { off0 with cycle := st'.cycle } ∈ (add_offer st' off0).offers)

/-- The deal postcondition claimed of `deal_cards`, for a commodity key
list `keys` (the Python 2 dict's key order is unspecified, so the key list
is abstract): `n` hands whose sizes sum to `9 * n + 2`, exactly one Bull,
one Bear and nine of each dealt commodity across all hands, the seats at
`dealer + 1` and `dealer + 2` (mod `n`) holding ten cards and every other
seat nine. -/
def DealSpec (keys : List Card) (n dealer : Nat) (deck : List Card) : Prop :=
  (deal_hands deck n dealer).length = n ∧
  ((deal_hands deck n dealer).map List.length).sum = 9 * n + 2 ∧
  (deal_hands deck n dealer).flatten.count BULL = 1 ∧
  (deal_hands deck n dealer).flatten.count BEAR = 1 ∧
  (∀ c ∈ keys, (deal_hands deck n dealer).flatten.count c = 9) ∧
  ∀ i, i < n →
    ((deal_hands deck n dealer).getD i []).length =
      if i = (dealer + 1) % n ∨ i = (dealer + 2) % n then 10 else 9

/-- What a valid confirmed trade does, as claimed: the trade completes (no
exception), the union multiset of all hands is unchanged, each response
card moves from the responder's hand to the initiator's and each confirm
card the other way, no other hand changes, the offer leaves the active
list, and scores are untouched. -/
def TradeConserveSpec (st : GameState) (resp : Response)
    (rc cc : List Card) : Prop :=
  ∃ st2, confirm st resp rc cc = .ok st2 ∧
    (st2.hands.flatten : Multiset Card) = (st.hands.flatten : Multiset Card) ∧
    getHand st2 resp.player = (getHand st resp.player).diff rc ++ cc ∧
    getHand st2 resp.offer.player = (getHand st resp.offer.player ++ rc).diff cc ∧
    (∀ q, q ≠ resp.player → q ≠ resp.offer.player → getHand st2 q = getHand st q) ∧
    st2.offers = st.offers.erase resp.offer ∧
    st2.scores = st.scores ∧
    st2.hands.length = st.hands.length

/-- The card-conservation property claimed for a round: dealing yields
`9 * n + 2` cards with the one Bull and one Bear, offers and bell rings do
not touch hands, a rejected response leaves the state untouched, and a
confirmed trade (both sides holding the cards they supply) permutes cards
between the two hands without changing the union multiset. -/
def ConserveSpec (st : GameState) (resp : Response) (rc cc : List Card) : Prop :=
  (∀ (keys : List Card) (n dealer : Nat) (deck : List Card),
      3 ≤ n → dealer < n → keys.length = n → keys.Nodup →
      BULL ∉ keys → BEAR ∉ keys → deck.Perm (make_deck_from keys) →
      ((deal_hands deck n dealer).map List.length).sum = 9 * n + 2 ∧
      (deal_hands deck n dealer).flatten.count BULL = 1 ∧
      (deal_hands deck n dealer).flatten.count BEAR = 1) ∧
  (∀ (st' : GameState) (off : Offer), (add_offer st' off).hands = st'.hands) ∧
  (∀ (st' : GameState) (p : Nat), (ring_bell st' p).hands = st'.hands) ∧
  (∀ (st' : GameState) (resp' : Response) (rm : Nat → Response → Option (List Card))
      (s : GameState), send_response st' resp' rm = .rejected s → s = st') ∧
  TradeConserveSpec st resp rc cc

/-- C10's content about `update_scores` and the round loop: any winner set
by settling is the player occurring last in seating order among those whose
new cumulative score reaches `WINNING_SCORE` (so not necessarily the
highest scorer), some winner is set whenever any player crosses, a winner
returned by the round loop always has cumulative score at least
`WINNING_SCORE`, and in a concrete simultaneous crossing the later seat
wins over the earlier, higher-scoring one. -/
def WinnerSpec (hands : List (List Card)) (scores : List Int) : Prop :=
  (∀ p, (update_scores hands scores none).2 = some p →
    p < (hands.zip scores).length ∧
    WINNING_SCORE ≤ (update_scores hands scores none).1.getD p 0 ∧
    ∀ k, p < k → k < (hands.zip scores).length →
      (update_scores hands scores none).1.getD k 0 < WINNING_SCORE) ∧
  (∀ j, j < (hands.zip scores).length →
    WINNING_SCORE ≤ (update_scores hands scores none).1.getD j 0 →
    ∃ r, (update_scores hands scores none).2 = some r) ∧
  (∀ rs sc p fs, play_rounds rs sc = some (p, fs) →
    WINNING_SCORE ≤ fs.getD p 0) ∧
  update_scores [List.replicate 9 wheat, List.replicate 9 barley] [495, 480] none =
    ([595, 565], some 1)

example : still_has_cards [wheat, wheat, bull] [wheat, wheat] = true := by decide
example : still_has_cards [wheat, bull] [wheat, wheat] = false := by decide
example : has_winning_hand (List.replicate 9 wheat) = true := by decide
example : has_winning_hand (bull :: List.replicate 8 wheat) = true := by decide
example : has_winning_hand (bear :: bull :: List.replicate 8 wheat) = false := by decide
example : has_winning_hand (bear :: List.replicate 9 wheat) = false := by decide
example : score_hand (List.replicate 9 wheat) = 100 := by decide
example : score_hand (bull :: List.replicate 9 wheat) = 200 := by decide
example : score_hand [bull] = -20 := by decide
example : score_hand [bull, bear] = -40 := by decide

/-- The modal card of a non-empty hand is a card of the hand. -/
theorem modal_card_mem {cards : List Card} (h : cards ≠ []) :
    modal_card cards ∈ cards := by
  unfold modal_card
  cases hm : cards.argmax fun c => cards.count c with
  | none => exact absurd (List.argmax_eq_none.mp hm) h
  | some m =>
    simpa using List.argmax_mem (Option.mem_def.mpr hm)

/-- No card occurs more often than `largest_group` many times. -/
theorem count_le_largest_group {cards : List Card} (h : cards ≠ []) {c : Card}
    (hc : c ∈ cards) : cards.count c ≤ largest_group cards := by
  unfold largest_group modal_card
  cases hm : cards.argmax fun c => cards.count c with
  | none => exact absurd (List.argmax_eq_none.mp hm) h
  | some m =>
    simpa using List.le_of_mem_argmax hc (Option.mem_def.mpr hm)

/-- When the card of maximal multiplicity is unique, `modal_card` computes
it, whatever tie-break order Python's set iteration would have used. -/
theorem modal_card_eq_of_unique {cards : List Card} (h : cards ≠ []) {m : Card}
    (huniq : ∀ m', m' ∈ cards → cards.count m' = largest_group cards → m' = m) :
    modal_card cards = m :=
  huniq _ (modal_card_mem h) rfl

/-- `still_has_cards` is the duplicate-counting membership check: it accepts
exactly when every card is claimed no more often than the hand holds it. -/
theorem still_has_cards_iff (hand cs : List Card) :
    still_has_cards hand cs = true ↔ ∀ c : Card, cs.count c ≤ hand.count c := by
  induction cs generalizing hand with
  | nil => simp [still_has_cards]
  | cons c rest ih =>
    unfold still_has_cards
    by_cases hc : c ∈ hand
    · rw [if_pos hc, ih]
      have hpos : 1 ≤ hand.count c := List.count_pos_iff.mpr hc
      constructor
      · intro h d
        have hd := h d
        by_cases hdc : d = c
        · subst hdc
          rw [List.count_erase_self] at hd
          rw [List.count_cons_self]
          omega
        · rw [List.count_erase_of_ne hdc] at hd
          rw [List.count_cons_of_ne hdc]
          exact hd
      · intro h d
        have hd := h d
        by_cases hdc : d = c
        · subst hdc
          rw [List.count_cons_self] at hd
          rw [List.count_erase_self]
          omega
        · rw [List.count_cons_of_ne hdc] at hd
          rw [List.count_erase_of_ne hdc]
          exact hd
    · rw [if_neg hc]
      constructor
      · intro h
        exact (Bool.false_ne_true h).elim
      · intro h
        exfalso
        have hcount := h c
        rw [List.count_eq_zero_of_not_mem hc, List.count_cons_self] at hcount
        omega

/-- C4 — Winning-hand detection: for every non-empty hand,
`has_winning_hand` is true exactly when the Bear is absent and the modal
count is 9, or is 8 with the Bull present; `largest_group` is indeed the
modal count; and the four concrete cases of the spec hold. -/
theorem c4_winning_hand_detection (cards : List Card) (h : cards ≠ []) :
    WinningHandSpec cards := by
  refine ⟨?_, fun c hc => count_le_largest_group h hc, modal_card_mem h, rfl,
    by decide, by decide, by decide, by decide⟩
  unfold has_winning_hand
  by_cases hb : BEAR ∈ cards
  · simp [hb]
  · simp [hb]

/-- Witness for C4 at the hand of nine wheat cards. -/
theorem c4_witness : WinningHandSpec (List.replicate 9 wheat) :=
  c4_winning_hand_detection (List.replicate 9 wheat) (by decide)

/-- C2 — End-of-round scoring: with `m` the hand's unique card of maximal
multiplicity, a winning hand scores `m`'s base value, doubled exactly when
the hand holds nine of `m` and the Bull; a losing hand takes the Bull and
Bear penalties independently and cumulatively. -/
theorem c2_scoring (cards : List Card) (m : Card) (hm : m ∈ cards)
    (huniq : ∀ m', m' ∈ cards → cards.count m' = largest_group cards → m' = m) :
    ScoreSpec cards m := by
  have hne : cards ≠ [] := by
    intro e
    rw [e] at hm
    exact List.not_mem_nil m hm
  have hmc : modal_card cards = m := modal_card_eq_of_unique hne huniq
  refine ⟨?_, ?_, by decide, by decide, by decide, by decide⟩
  · intro hw
    simp [score_hand, hw, hmc]
  · intro hw
    simp [score_hand, hw]

/-- Witness for C2 at the hand of nine wheat cards. -/
theorem c2_witness : ScoreSpec (List.replicate 9 wheat) wheat :=
  c2_scoring (List.replicate 9 wheat) wheat (by decide) (by decide)

/-- C5 — Responder-side rejection: a response whose offer is gone, or made
by the offer's own initiator, or whose claimed cards the responder no
longer holds, is rejected with the state completely unchanged (hands,
offers and scores intact, no exception), the responder being notified; and
the holding check counts duplicates without removing cards. -/
theorem c5_responder_side_rejection (st : GameState) (resp : Response)
    (rm : Nat → Response → Option (List Card))
    (h : resp.offer ∉ st.offers ∨ resp.player = resp.offer.player ∨
      still_has_cards (getHand st resp.player) resp.cards = false) :
    RejectSpec st resp rm := by
  refine ⟨?_, still_has_cards_iff⟩
  unfold send_response
  rw [if_neg]
  rintro ⟨h1, h2, h3⟩
  rcases h with h | h | h
  · exact h h1
  · exact h2 h
  · rw [h3] at h
    exact Bool.true_eq_false.mp h

/-- Witness for C5: a response to an offer absent from the active list. -/
theorem c5_witness :
    RejectSpec
      { cycle := 0, inPlay := true, offers := [], hands := [[wheat], [barley]],
        scores := [0, 0] }
      { offer := { player := 0, quantity := 1, cycle := 0 }, player := 1,
        cards := [barley], cycle := 0 }
      (fun _ _ => some [wheat]) :=
  c5_responder_side_rejection _ _ _ (Or.inl (by decide))

/-- C8 — Offer expiry window: an active offer stamped at cycle `c` survives
(and is not reported expired by) every sweep whose cycle counter is at most
`c + OFFER_CYCLES`, and the sweep at counter `c + OFFER_CYCLES + 1` drops it
and notifies the initiator; expiry is exactly age `> OFFER_CYCLES`; offers
are stamped with the cycle they are made in. -/
theorem c8_offer_expiry (st : GameState) (off : Offer)
    (hmem : off ∈ st.offers) : ExpirySpec st off := by
  refine ⟨?_, ?_, ?_, ?_⟩
  · intro hcyc
    rw [OFFER_CYCLES] at hcyc
    have hexp : expired_offer st.cycle off = false := by
      simp only [expired_offer, decide_eq_false_iff_not, not_lt, OFFER_CYCLES]
      push_cast
      omega
    constructor
    · exact List.mem_filter.mpr ⟨hmem, by rw [hexp]; rfl⟩
    · intro hin
      have h2 := (List.mem_filter.mp hin).2
      rw [hexp] at h2
      exact Bool.false_ne_true h2
  · intro hcyc
    rw [OFFER_CYCLES] at hcyc
    have hexp : expired_offer st.cycle off = true := by
      simp only [expired_offer, decide_eq_true_eq, OFFER_CYCLES]
      push_cast
      omega
    constructor
    · intro hin
      have h2 := (List.mem_filter.mp hin).2
      rw [hexp] at h2
      simp at h2
    · exact List.mem_filter.mpr ⟨hmem, hexp⟩
  · simp [expired_offer]
  · intro st' off0
    simp [add_offer]

/-- Witness for C8: an offer stamped at cycle 0 under a sweep at cycle 5. -/
theorem c8_witness :
    ExpirySpec
      { cycle := 5, inPlay := true,
        offers := [{ player := 0, quantity := 2, cycle := 0 }],
        hands := [], scores := [] }
      { player := 0, quantity := 2, cycle := 0 } :=
  c8_offer_expiry _ _ (by decide)

/-- A single card move keeps the cycle counter, the `in_play` flag, the
scores, the offers and the number of seats. -/
theorem move_card_preserves {st st2 : GameState} {src dst : Nat} {c : Card}
    (h : move_card st src dst c = some st2) :
    st2.cycle = st.cycle ∧ st2.inPlay = st.inPlay ∧ st2.scores = st.scores ∧
      st2.offers = st.offers ∧ st2.hands.length = st.hands.length := by
  unfold move_card at h
  split at h
  · simp only [Option.some.injEq] at h
    subst h
    simp [setHand]
  · exact Option.noConfusion h

/-- A whole transfer loop of `confirm`, when it completes, keeps the cycle
counter, the `in_play` flag, the scores, the offers and the seat count. -/
theorem move_cards_preserves :
    ∀ (cs : List Card) (st st2 : GameState) (src dst : Nat),
      move_cards st src dst cs = .ok st2 →
      st2.cycle = st.cycle ∧ st2.inPlay = st.inPlay ∧ st2.scores = st.scores ∧
        st2.offers = st.offers ∧ st2.hands.length = st.hands.length := by
  intro cs
  induction cs with
  | nil =>
    intro st st2 src dst h
    simp only [move_cards, Except.ok.injEq] at h
    subst h
    exact ⟨rfl, rfl, rfl, rfl, rfl⟩
  | cons c rest ih =>
    intro st st2 src dst h
    simp only [move_cards] at h
    cases hm : move_card st src dst c with
    | none =>
      rw [hm] at h
      exact Except.noConfusion h
    | some stm =>
      rw [hm] at h
      obtain ⟨h1, h2, h3, h4, h5⟩ := ih stm st2 src dst h
      obtain ⟨g1, g2, g3, g4, g5⟩ := move_card_preserves hm
      exact ⟨h1.trans g1, h2.trans g2, h3.trans g3, h4.trans g4, h5.trans g5⟩

/-- A completed `confirm` keeps the cycle counter, the `in_play` flag and
the scores. -/
theorem confirm_preserves {st : GameState} {resp : Response}
    {rc cc : List Card} {st2 : GameState}
    (h : confirm st resp rc cc = .ok st2) :
    st2.cycle = st.cycle ∧ st2.inPlay = st.inPlay ∧ st2.scores = st.scores := by
  unfold confirm at h
  cases hm : move_cards { st with offers := st.offers.erase resp.offer }
      resp.player resp.offer.player rc with
  | error s =>
    rw [hm] at h
    exact Except.noConfusion h
  | ok stm =>
    rw [hm] at h
    obtain ⟨a1, a2, a3, _, _⟩ := move_cards_preserves _ _ _ _ _ hm
    obtain ⟨b1, b2, b3, _, _⟩ := move_cards_preserves _ _ _ _ _ h
    exact ⟨b1.trans a1, b2.trans a2, b3.trans a3⟩

/-- A rejected response leaves the state exactly as it was: every rejection
branch of `send_response` returns the incoming state. -/
theorem send_response_rejected_eq {st : GameState} {resp : Response}
    {rm : Nat → Response → Option (List Card)} {s : GameState}
    (h : send_response st resp rm = .rejected s) : s = st := by
  unfold send_response at h
  split at h
  · cases hrm : rm resp.offer.player { resp with cards := [], cycle := st.cycle } with
    | none =>
      rw [hrm] at h
      simp only [RespResult.rejected.injEq] at h
      exact h.symm
    | some cc =>
      simp only [hrm] at h
      by_cases hcc : cc ≠ []
      · rw [if_pos hcc] at h
        cases hcf : confirm st { resp with cards := [], cycle := st.cycle }
            resp.cards cc with
        | ok s2 =>
          rw [hcf] at h
          exact RespResult.noConfusion h
        | error s2 =>
          rw [hcf] at h
          exact RespResult.noConfusion h
      · rw [if_neg hcc] at h
        simp only [RespResult.rejected.injEq] at h
        exact h.symm
  · simp only [RespResult.rejected.injEq] at h
    exact h.symm

/-- A confirmed trade means: all three responder-side checks passed, the
initiator's callback returned a non-empty card list, and `confirm` ran to
completion on it. -/
theorem send_response_confirmed_eq {st : GameState} {resp : Response}
    {rm : Nat → Response → Option (List Card)} {s : GameState}
    (h : send_response st resp rm = .confirmed s) :
    (resp.offer ∈ st.offers ∧ resp.player ≠ resp.offer.player ∧
      still_has_cards (getHand st resp.player) resp.cards = true) ∧
    ∃ cc, cc ≠ [] ∧
      rm resp.offer.player { resp with cards := [], cycle := st.cycle } = some cc ∧
      confirm st { resp with cards := [], cycle := st.cycle } resp.cards cc = .ok s := by
  unfold send_response at h
  split at h
  case isTrue hcond =>
    cases hrm : rm resp.offer.player { resp with cards := [], cycle := st.cycle } with
    | none =>
      rw [hrm] at h
      exact RespResult.noConfusion h
    | some cc =>
      simp only [hrm] at h
      by_cases hcc : cc ≠ []
      · rw [if_pos hcc] at h
        cases hcf : confirm st { resp with cards := [], cycle := st.cycle }
            resp.cards cc with
        | ok s2 =>
          rw [hcf] at h
          simp only [RespResult.confirmed.injEq] at h
          subst h
          exact ⟨⟨hcond.1, hcond.2.1, hcond.2.2⟩, cc, hcc, rfl, hcf⟩
        | error s2 =>
          rw [hcf] at h
          exact RespResult.noConfusion h
      · rw [if_neg hcc] at h
        exact RespResult.noConfusion h
  case isFalse => exact RespResult.noConfusion h

/-- A dispatched action that does not raise keeps the cycle counter. -/
theorem process_action_cycle {rm : Nat → Response → Option (List Card)}
    {st : GameState} {a : Action} {st2 : GameState}
    (h : process_action rm st a = .ok st2) : st2.cycle = st.cycle := by
  cases a with
  | offer off =>
    simp only [process_action, Except.ok.injEq] at h
    subst h
    rfl
  | bellRing p =>
    simp only [process_action, Except.ok.injEq] at h
    subst h
    unfold ring_bell
    split <;> rfl
  | response resp =>
    simp only [process_action] at h
    cases hs : send_response st resp rm with
    | rejected s =>
      rw [hs] at h
      simp only [Except.ok.injEq] at h
      subst h
      rw [send_response_rejected_eq hs]
    | confirmed s =>
      rw [hs] at h
      simp only [Except.ok.injEq] at h
      subst h
      obtain ⟨_, cc, _, _, hcf⟩ := send_response_confirmed_eq hs
      exact (confirm_preserves hcf).1
    | crashed s =>
      rw [hs] at h
      exact Except.noConfusion h

/-- A prefix dispatched without ending the round keeps the cycle counter. -/
theorem dispatch_seq_cycle :
    ∀ (pre : List Action) (rm : Nat → Response → Option (List Card))
      (st st1 : GameState),
      dispatch_seq rm st pre = some st1 → st1.cycle = st.cycle := by
  intro pre
  induction pre with
  | nil =>
    intro rm st st1 h
    simp only [dispatch_seq, Option.some.injEq] at h
    subst h
    rfl
  | cons a rest ih =>
    intro rm st st1 h
    simp only [dispatch_seq] at h
    cases hp : process_action rm st a with
    | error s =>
      rw [hp] at h
      exact Option.noConfusion h
    | ok s =>
      simp only [hp] at h
      by_cases hin : s.inPlay = true
      · rw [if_pos hin] at h
        exact (ih rm s st1 h).trans (process_action_cycle hp)
      · rw [if_neg hin] at h
        exact Option.noConfusion h

/-- C7 — Mid-cycle short-circuit: if, after some prefix of the cycle's
permuted actions runs without ending the round, the next action turns
`in_play` off, then `one_cycle` returns right there: the remaining actions
are never dispatched, the cycle counter is not advanced (so the cycle is
not counted) and no offer-expiry sweep or expiry notification happens. -/
theorem c7_short_circuit (rm : Nat → Response → Option (List Card))
    (st st1 st2 : GameState) (pre post : List Action) (a : Action)
    (hpre : dispatch_seq rm st pre = some st1)
    (ha : process_action rm st1 a = .ok st2)
    (hstop : st2.inPlay = false) :
    one_cycle rm st (pre ++ a :: post) = .ok (st2, []) ∧ st2.cycle = st.cycle := by
  have main : ∀ (pre' : List Action) (s : GameState),
      dispatch_seq rm s pre' = some st1 →
      one_cycle rm s (pre' ++ a :: post) = .ok (st2, []) := by
    intro pre'
    induction pre' with
    | nil =>
      intro s hp
      simp only [dispatch_seq, Option.some.injEq] at hp
      subst hp
      simp only [List.nil_append, one_cycle]
      rw [ha]
      simp [hstop]
    | cons b rest ih =>
      intro s hp
      simp only [dispatch_seq] at hp
      cases hb : process_action rm s b with
      | error s' =>
        rw [hb] at hp
        exact Option.noConfusion hp
      | ok s' =>
        simp only [hb] at hp
        by_cases hin : s'.inPlay = true
        · rw [if_pos hin] at hp
          simp only [List.cons_append, one_cycle]
          rw [hb]
          simp only [hin, if_true]
          exact ih s' hp
        · rw [if_neg hin] at hp
          exact Option.noConfusion hp
  exact ⟨main pre st hpre,
    (process_action_cycle ha).trans (dispatch_seq_cycle pre rm st st1 hpre)⟩

/-- Witness for C7: a winning bell-ring ends the round with a later-ordered
offer action left undispatched, the counter untouched and no sweep. -/
theorem c7_witness :
    one_cycle (fun _ _ => none)
      { cycle := 3, inPlay := true, offers := [],
        hands := [List.replicate 9 wheat], scores := [0] }
      ([] ++ Action.bellRing 0 ::
        [Action.offer { player := 0, quantity := 1, cycle := 0 }]) =
      .ok ({ cycle := 3, inPlay := false, offers := [],
             hands := [List.replicate 9 wheat], scores := [0] }, []) ∧
    (3 : Nat) = 3 := by
  have h := c7_short_circuit (fun _ _ => none)
    { cycle := 3, inPlay := true, offers := [],
      hands := [List.replicate 9 wheat], scores := [0] }
    { cycle := 3, inPlay := true, offers := [],
      hands := [List.replicate 9 wheat], scores := [0] }
    { cycle := 3, inPlay := false, offers := [],
      hands := [List.replicate 9 wheat], scores := [0] }
    [] [Action.offer { player := 0, quantity := 1, cycle := 0 }]
    (Action.bellRing 0) rfl rfl rfl
  exact ⟨h.1, rfl⟩

/-- The scores produced by the settling loop: each player's cumulative score
plus the round score of their final hand, in seating order. -/
theorem update_scores_aux_fst :
    ∀ (pairs : List (List Card × Int)) (i : Nat) (w : Option Nat),
      (update_scores_aux pairs i w).1 = pairs.map fun q => q.2 + score_hand q.1 := by
  intro pairs
  induction pairs with
  | nil => intro i w; rfl
  | cons hd rest ih =>
    obtain ⟨hand, sc⟩ := hd
    intro i w
    simp only [update_scores_aux, List.map_cons, List.cons.injEq]
    exact ⟨trivial, ih (i + 1) _⟩

/-- Any winner set by the settling loop is the last crossing seat: either it
is seat `i + j` for the last `j` whose new score reaches `WINNING_SCORE`, or
nobody crossed and the winner is the incoming one. -/
theorem update_scores_aux_winner_spec :
    ∀ (pairs : List (List Card × Int)) (i : Nat) (w : Option Nat) (p : Nat),
      (update_scores_aux pairs i w).2 = some p →
      (∃ j, j < pairs.length ∧ p = i + j ∧
          WINNING_SCORE ≤ (pairs.map fun q => q.2 + score_hand q.1).getD j 0 ∧
          ∀ k, j < k → k < pairs.length →
            (pairs.map fun q => q.2 + score_hand q.1).getD k 0 < WINNING_SCORE) ∨
      (w = some p ∧ ∀ j, j < pairs.length →
          (pairs.map fun q => q.2 + score_hand q.1).getD j 0 < WINNING_SCORE) := by
  intro pairs
  induction pairs with
  | nil =>
    intro i w p h
    right
    exact ⟨h, fun j hj => absurd hj (by simp)⟩
  | cons hd rest ih =>
    obtain ⟨hand, sc⟩ := hd
    intro i w p h
    simp only [update_scores_aux] at h
    rcases ih (i + 1) _ p h with ⟨j, hj, hp, hw, hafter⟩ | ⟨hw2, hall⟩
    · left
      refine ⟨j + 1, by simpa using Nat.succ_lt_succ hj, by omega, by simpa using hw, ?_⟩
      intro k hk1 hk2
      cases k with
      | zero => omega
      | succ k' =>
        have hk := hafter k' (by omega) (by simpa using hk2)
        simpa using hk
    · by_cases hcross : sc + score_hand hand ≥ WINNING_SCORE
      · rw [if_pos hcross] at hw2
        left
        simp only [Option.some.injEq] at hw2
        refine ⟨0, by simp, by omega, by simpa using hcross, ?_⟩
        intro k hk1 hk2
        cases k with
        | zero => omega
        | succ k' =>
          have hk := hall k' (by simpa using hk2)
          simpa using hk
      · rw [if_neg hcross] at hw2
        right
        refine ⟨hw2, ?_⟩
        intro j hj
        cases j with
        | zero =>
          simp only [List.map_cons, List.getD_cons_zero]
          omega
        | succ j' =>
          have hk := hall j' (by simpa using hj)
          simpa using hk

/-- Once a winner is recorded, the rest of the settling loop keeps some
winner recorded (possibly overwriting it with a later crosser). -/
theorem update_scores_aux_keeps_winner :
    ∀ (pairs : List (List Card × Int)) (i q : Nat),
      ∃ r, (update_scores_aux pairs i (some q)).2 = some r := by
  intro pairs
  induction pairs with
  | nil => intro i q; exact ⟨q, rfl⟩
  | cons hd rest ih =>
    obtain ⟨hand, sc⟩ := hd
    intro i q
    simp only [update_scores_aux]
    by_cases hcross : sc + score_hand hand ≥ WINNING_SCORE
    · rw [if_pos hcross]
      exact ih (i + 1) i
    · rw [if_neg hcross]
      exact ih (i + 1) q

/-- If any seat's new score crosses the threshold, settling records some
winner. -/
theorem update_scores_aux_crossing_sets_winner :
    ∀ (pairs : List (List Card × Int)) (i : Nat) (w : Option Nat) (j : Nat),
      j < pairs.length →
      WINNING_SCORE ≤ (pairs.map fun q => q.2 + score_hand q.1).getD j 0 →
      ∃ r, (update_scores_aux pairs i w).2 = some r := by
  intro pairs
  induction pairs with
  | nil => intro i w j hj; exact absurd hj (by simp)
  | cons hd rest ih =>
    obtain ⟨hand, sc⟩ := hd
    intro i w j hj hcross
    simp only [update_scores_aux]
    cases j with
    | zero =>
      simp only [List.map_cons, List.getD_cons_zero] at hcross
      rw [if_pos hcross]
      exact update_scores_aux_keeps_winner rest (i + 1) i
    | succ j' =>
      exact ih (i + 1) _ j' (by simpa using hj) (by simpa using hcross)

/-- A winner returned by the round loop has cumulative score at least
`WINNING_SCORE` in the score list returned with it. -/
theorem play_rounds_winner_score :
    ∀ (rs : List (List (List Card))) (sc : List Int) (p : Nat) (fs : List Int),
      play_rounds rs sc = some (p, fs) → WINNING_SCORE ≤ fs.getD p 0 := by
  intro rs
  induction rs with
  | nil => intro sc p fs h; exact Option.noConfusion h
  | cons hs rest ih =>
    intro sc p fs h
    simp only [play_rounds] at h
    cases hw : (update_scores hs sc none).2 with
    | some q =>
      simp only [hw, Option.some.injEq, Prod.mk.injEq] at h
      obtain ⟨rfl, rfl⟩ := h
      rcases update_scores_aux_winner_spec (hs.zip sc) 0 none q hw with
        ⟨j, hj, hp, hcross, _⟩ | ⟨hnone, _⟩
      · have hq : q = j := by omega
        subst hq
        rw [update_scores, update_scores_aux_fst]
        exact hcross
      · exact Option.noConfusion hnone
    | none =>
      simp only [hw] at h
      exact ih _ p fs h

/-- C10 — Winner selection on simultaneous threshold: `update_scores` scans
seats in order and overwrites the winner at every seat crossing
`WINNING_SCORE`, so the recorded winner is the crossing seat occurring last
in the players sequence, a crossing always records a winner, and the round
loop only ever returns a winner whose cumulative score is at least
`WINNING_SCORE`; concretely, seats 0 and 1 crossing together yields seat 1
even though seat 0 scores higher. -/
theorem c10_winner_selection (hands : List (List Card)) (scores : List Int) :
    WinnerSpec hands scores := by
  refine ⟨?_, ?_, play_rounds_winner_score, by decide⟩
  · intro p h
    rcases update_scores_aux_winner_spec (hands.zip scores) 0 none p h with
      ⟨j, hj, hp, hcross, hafter⟩ | ⟨hnone, _⟩
    · have hpj : p = j := by omega
      subst hpj
      refine ⟨hj, ?_, ?_⟩
      · rw [update_scores, update_scores_aux_fst]
        exact hcross
      · intro k hk1 hk2
        rw [update_scores, update_scores_aux_fst]
        exact hafter k hk1 hk2
    · exact Option.noConfusion hnone
  · intro j hj hcross
    rw [update_scores, update_scores_aux_fst] at hcross
    exact update_scores_aux_crossing_sets_winner (hands.zip scores) 0 none j hj hcross

/-- Witness for C10 at the concrete two-seat simultaneous crossing. -/
theorem c10_witness :
    WinnerSpec [List.replicate 9 wheat, List.replicate 9 barley] [495, 480] :=
  c10_winner_selection [List.replicate 9 wheat, List.replicate 9 barley] [495, 480]

/-- C1 (code bug) — The initiator's confirm cards are never re-validated: in
this state every responder-side check passes, the initiator's callback
returns a card (`corn`) the initiator does not hold, and instead of a
normal rejection the engine raises from inside `confirm` after the offer
has already been removed and the responder's card already handed over — a
partial, invalid transfer escaping as an exception. -/
theorem c1_initiator_cards_unchecked :
    send_response
      { cycle := 0, inPlay := true,
        offers := [{ player := 0, quantity := 1, cycle := 0 }],
        hands := [[wheat], [barley]], scores := [0, 0] }
      { offer := { player := 0, quantity := 1, cycle := 0 }, player := 1,
        cards := [barley], cycle := 0 }
      (fun _ _ => some [corn]) =
      .crashed { cycle := 0, inPlay := true, offers := [],
                 hands := [[wheat, barley], []], scores := [0, 0] } ∧
    still_has_cards
      (getHand
        { cycle := 0, inPlay := true,
          offers := [{ player := 0, quantity := 1, cycle := 0 }],
          hands := [[wheat], [barley]], scores := [0, 0] } 0) [corn] = false ∧
    ([[wheat, barley], []] : List (List Card)) ≠ [[wheat], [barley]] ∧
    ([] : List Offer) ≠ [{ player := 0, quantity := 1, cycle := 0 }] := by
  refine ⟨rfl, rfl, by decide, by decide⟩

/-- C9 (code bug) — No capacity check: with nine players
`COMMODITIES.keys()[:9]` silently truncates to the eight defined
commodities, so the deck is the same 74-card deck as for eight players and
dealing completes without any error: the hands hold 76 card slots instead
of the 83 the deal invariant demands (the ninth seat gets only the two
remaining cards, and both leftover cards appended to seats 1 and 2
duplicate cards already dealt to seat 8 — `oranges` occurs 11 times). -/
theorem c9_overcapacity_no_error :
    make_deck 9 = make_deck 8 ∧
    (make_deck 9).length = 74 ∧
    ((deal_hands (make_deck 9) 9 0).map List.length).sum = 76 ∧
    9 * 9 + 2 = 83 ∧
    (deal_hands (make_deck 9) 9 0).flatten.count oranges = 11 := by
  refine ⟨rfl, rfl, by decide, rfl, by decide⟩

/-- Taking `m + k` elements is taking `m`, then `k` more after dropping. -/
theorem take_add_eq {α : Type} (l : List α) (m k : Nat) :
    l.take (m + k) = l.take m ++ (l.drop m).take k := by
  calc l.take (m + k)
      = (l.take (m + k)).take m ++ (l.take (m + k)).drop m :=
        (List.take_append_drop m _).symm
    _ = l.take m ++ (l.drop m).take k := by
        rw [List.take_take, min_eq_left (Nat.le_add_right m k), List.take_drop]

/-- The nine-card slices `cards[i*9 : i*9+9]` for `i < n` concatenate to the
first `9 * n` cards of the deck. -/
theorem slices_flatten {α : Type} :
    ∀ (n : Nat) (l : List α),
      ((List.range n).map fun i => (l.drop (9 * i)).take 9).flatten = l.take (9 * n) := by
  intro n
  induction n with
  | zero => intro l; rfl
  | succ m ih =>
    intro l
    rw [List.range_succ, List.map_append, List.flatten_append, ih]
    simp only [List.map_cons, List.map_nil, List.flatten_cons, List.flatten_nil,
      List.append_nil]
    rw [show 9 * (m + 1) = 9 * m + 9 by ring, take_add_eq]

/-- Replacing one hand trades its old content for its new content in the
union multiset of all hands. -/
theorem flatten_set_sum :
    ∀ (l : List (List Card)) (i : Nat) (x : List Card), i < l.length →
      (↑(l.set i x).flatten + ↑(l.getD i []) : Multiset Card) =
        ↑l.flatten + ↑x := by
  intro l
  induction l with
  | nil =>
    intro i x hi
    simp at hi
  | cons h0 rest ih =>
    intro i x hi
    cases i with
    | zero =>
      simp only [List.set_cons_zero, List.flatten_cons, List.getD_cons_zero]
      rw [Multiset.coe_add, Multiset.coe_add, Multiset.coe_eq_coe]
      have p1 : ((x ++ rest.flatten) ++ h0).Perm (h0 ++ (x ++ rest.flatten)) :=
        List.perm_append_comm
      have p2 : (h0 ++ (x ++ rest.flatten)).Perm (h0 ++ (rest.flatten ++ x)) :=
        List.Perm.append_left h0 List.perm_append_comm
      have p3 := p1.trans p2
      rw [← List.append_assoc] at p3
      exact p3
    | succ i' =>
      have hi' : i' < rest.length := by
        simp at hi
        omega
      simp only [List.set_cons_succ, List.flatten_cons, List.getD_cons_succ]
      rw [← Multiset.coe_add, ← Multiset.coe_add]
      rw [add_assoc, add_assoc, ih i' x hi']

/-- Appending cards to one hand appends them to the union multiset. -/
theorem flatten_set_append (l : List (List Card)) (i : Nat) (s : List Card)
    (hi : i < l.length) :
    ((l.set i (l.getD i [] ++ s)).flatten : Multiset Card) = ↑l.flatten + ↑s := by
  have h := flatten_set_sum l i (l.getD i [] ++ s) hi
  rw [← Multiset.coe_add] at h
  apply add_right_cancel (b := (↑(l.getD i []) : Multiset Card))
  rw [h]
  abel

/-- Reading back the seat just overwritten. -/
theorem getD_set_self (l : List (List Card)) (i : Nat) (x : List Card)
    (hi : i < l.length) : (l.set i x).getD i [] = x := by
  rw [List.getD_eq_getElem?_getD, List.getElem?_set_self hi]
  rfl

/-- Reading a seat other than the one overwritten. -/
theorem getD_set_ne (l : List (List Card)) (i j : Nat) (x : List Card)
    (hij : i ≠ j) : (l.set i x).getD j [] = l.getD j [] := by
  rw [List.getD_eq_getElem?_getD, List.getElem?_set_ne hij,
    ← List.getD_eq_getElem?_getD]

/-- Nine copies of each key contribute `9 * count` occurrences. -/
theorem count_flat_replicate (c : Card) :
    ∀ keys : List Card,
      ((keys.map fun k => List.replicate 9 k).flatten).count c = 9 * keys.count c := by
  intro keys
  induction keys with
  | nil => rfl
  | cons k rest ih =>
    simp only [List.map_cons, List.flatten_cons, List.count_append, ih,
      List.count_replicate, List.count_cons]
    by_cases h : k = c
    · subst h
      simp only [beq_self_eq_true, if_pos]
      ring
    · have h1 : (k == c) = false := by
        simp [h]
      have h2 : (c == k) = false := by
        simp [Ne.symm h]
      simp only [h1, h2, Bool.false_eq_true, if_false]
      ring

/-- Counting cards in the deck built from a key list. -/
theorem count_make_deck_from (keys : List Card) (c : Card) :
    (make_deck_from keys).count c = [BULL, BEAR].count c + 9 * keys.count c := by
  unfold make_deck_from
  rw [List.count_append, count_flat_replicate]

/-- The deck built from a key list has `2 + 9 * |keys|` cards. -/
theorem length_make_deck_from (keys : List Card) :
    (make_deck_from keys).length = 2 + 9 * keys.length := by
  unfold make_deck_from
  rw [List.length_append]
  congr 1
  induction keys with
  | nil => rfl
  | cons k rest ih =>
    simp only [List.map_cons, List.flatten_cons, List.length_append,
      List.length_replicate, ih, List.length_cons]
    ring

/-- The leftover seats are in range. -/
theorem extra_seat_lt (dealer k n : Nat) (hd : dealer < n) (hk : k ≤ n) :
    extra_seat dealer k n < n := by
  unfold extra_seat
  split <;> omega

/-- The leftover seat is `dealer + k` modulo the player count. -/
theorem extra_seat_mod (dealer k n : Nat) (hd : dealer < n) (hk : k ≤ n) :
    extra_seat dealer k n = (dealer + k) % n := by
  unfold extra_seat
  split
  case isTrue h =>
    rw [Nat.mod_eq_sub_mod h, Nat.mod_eq_of_lt (by omega)]
  case isFalse h =>
    rw [Nat.mod_eq_of_lt (by omega)]

/-- With at least three players the two leftover seats are distinct. -/
theorem extra_seats_ne (dealer n : Nat) (hd : dealer < n) (hn : 3 ≤ n) :
    extra_seat dealer 1 n ≠ extra_seat dealer 2 n := by
  unfold extra_seat
  split <;> split <;> omega

/-- The base slice a seat is dealt. -/
theorem base_getD (n i : Nat) (deck : List Card) (hi : i < n) :
    ((List.range n).map fun j => (deck.drop (9 * j)).take 9).getD i [] =
      (deck.drop (9 * i)).take 9 := by
  rw [List.getD_eq_getElem?_getD, List.getElem?_map, List.getElem?_range hi]
  rfl

/-- Dealing distributes exactly the deck: the union multiset of all dealt
hands is the shuffled deck itself. -/
theorem deal_flatten (n dealer : Nat) (deck : List Card)
    (hd : dealer < n) (hn : 3 ≤ n) (hlen : deck.length = 9 * n + 2) :
    ((deal_hands deck n dealer).flatten : Multiset Card) = ↑deck := by
  have hE1 : extra_seat dealer 1 n < n := extra_seat_lt dealer 1 n hd (by omega)
  have hE2 : extra_seat dealer 2 n < n := extra_seat_lt dealer 2 n hd (by omega)
  have hBlen : ((List.range n).map fun i => (deck.drop (9 * i)).take 9).length = n := by
    simp
  have hW := flatten_set_append
    ((List.range n).map fun i => (deck.drop (9 * i)).take 9)
    (extra_seat dealer 1 n) ((deck.drop (deck.length - 2)).take 1)
    (by rw [hBlen]; exact hE1)
  have hWlen :
      ((((List.range n).map fun i => (deck.drop (9 * i)).take 9)).set
          (extra_seat dealer 1 n)
          ((((List.range n).map fun i => (deck.drop (9 * i)).take 9)).getD
              (extra_seat dealer 1 n) [] ++
            (deck.drop (deck.length - 2)).take 1)).length = n := by
    rw [List.length_set, hBlen]
  have hfin := flatten_set_append
    ((((List.range n).map fun i => (deck.drop (9 * i)).take 9)).set
        (extra_seat dealer 1 n)
        ((((List.range n).map fun i => (deck.drop (9 * i)).take 9)).getD
            (extra_seat dealer 1 n) [] ++
          (deck.drop (deck.length - 2)).take 1))
    (extra_seat dealer 2 n) ((deck.drop (deck.length - 1)).take 1)
    (by rw [hWlen]; exact hE2)
  obtain ⟨a, b, hab⟩ : ∃ a b, deck.drop (9 * n) = [a, b] := by
    have hl2 : (deck.drop (9 * n)).length = 2 := by
      rw [List.length_drop]
      omega
    cases hdd : deck.drop (9 * n) with
    | nil => rw [hdd] at hl2; simp at hl2
    | cons a r =>
      cases r with
      | nil => rw [hdd] at hl2; simp at hl2
      | cons b r2 =>
        cases r2 with
        | nil => exact ⟨a, b, rfl⟩
        | cons c r3 => rw [hdd] at hl2; simp at hl2
  have ht1 : (deck.drop (deck.length - 2)).take 1 = [a] := by
    rw [show deck.length - 2 = 9 * n by omega, hab]
    rfl
  have ht2 : (deck.drop (deck.length - 1)).take 1 = [b] := by
    rw [show deck.length - 1 = 9 * n + 1 by omega, ← List.drop_drop, hab]
    rfl
  show ((deal_hands deck n dealer).flatten : Multiset Card) = ↑deck
  unfold deal_hands
  rw [hfin, hW, slices_flatten, ht1, ht2]
  have hsplit : deck = deck.take (9 * n) ++ [a] ++ [b] := by
    conv_lhs => rw [← List.take_append_drop (9 * n) deck]
    rw [hab, List.append_assoc]
    rfl
  conv_rhs => rw [hsplit]
  rw [← Multiset.coe_add, ← Multiset.coe_add]

/-- What each seat's dealt hand is: its nine-card slice, with one leftover
card appended at each of the two leftover seats. -/
theorem deal_getD (n dealer : Nat) (deck : List Card) (hd : dealer < n)
    (hn : 3 ≤ n) (i : Nat) (hi : i < n) :
    (deal_hands deck n dealer).getD i [] =
      (deck.drop (9 * i)).take 9 ++
        (if i = extra_seat dealer 1 n then (deck.drop (deck.length - 2)).take 1
         else []) ++
        (if i = extra_seat dealer 2 n then (deck.drop (deck.length - 1)).take 1
         else []) := by
  have hne := extra_seats_ne dealer n hd hn
  have hE1 : extra_seat dealer 1 n < n := extra_seat_lt dealer 1 n hd (by omega)
  have hE2 : extra_seat dealer 2 n < n := extra_seat_lt dealer 2 n hd (by omega)
  have hBlen : ((List.range n).map fun j => (deck.drop (9 * j)).take 9).length = n := by
    simp
  unfold deal_hands
  by_cases h2 : i = extra_seat dealer 2 n
  · subst h2
    rw [getD_set_self _ _ _ (by rw [List.length_set, hBlen]; exact hE2)]
    rw [getD_set_ne _ _ _ _ hne, base_getD n _ deck hE2]
    rw [if_neg (fun h => hne (h.symm)), if_pos rfl, List.append_nil]
  · rw [getD_set_ne _ _ _ _ (fun h => h2 h.symm), if_neg h2, List.append_nil]
    by_cases h1 : i = extra_seat dealer 1 n
    · subst h1
      rw [getD_set_self _ _ _ (by rw [hBlen]; exact hE1)]
      rw [base_getD n _ deck hE1, if_pos rfl]
    · rw [getD_set_ne _ _ _ _ (fun h => h1 h.symm), if_neg h1, List.append_nil]
      exact base_getD n i deck hi

/-- C3 — Deal postcondition: for 3 to 8 players, any dealer seat, any
duplicate-free commodity key list and any shuffle of the deck built from
it, dealing yields hands summing to `9 * n + 2` cards with exactly one
Bull, one Bear and nine of each dealt commodity, the seats after the dealer
getting ten cards and all others nine. -/
theorem c3_deal_invariant (keys : List Card) (n dealer : Nat) (deck : List Card)
    (hn3 : 3 ≤ n) (hn8 : n ≤ 8) (hd : dealer < n) (hkl : keys.length = n)
    (hnd : keys.Nodup) (hbu : BULL ∉ keys) (hbe : BEAR ∉ keys)
    (hperm : deck.Perm (make_deck_from keys)) : DealSpec keys n dealer deck := by
  have hlen : deck.length = 9 * n + 2 := by
    rw [hperm.length_eq, length_make_deck_from, hkl]
    omega
  have hflat := deal_flatten n dealer deck hd hn3 hlen
  have hcount : ∀ c : Card, (deal_hands deck n dealer).flatten.count c = deck.count c := by
    intro c
    have h := congrArg (Multiset.count c) hflat
    simpa using h
  refine ⟨?_, ?_, ?_, ?_, ?_, ?_⟩
  · unfold deal_hands
    simp
  · rw [← List.length_flatten]
    have h2 : (deal_hands deck n dealer).flatten.length = deck.length := by
      have h := congrArg Multiset.card hflat
      simpa using h
    rw [h2, hlen]
  · rw [hcount BULL, hperm.count_eq, count_make_deck_from,
      List.count_eq_zero_of_not_mem hbu]
    decide
  · rw [hcount BEAR, hperm.count_eq, count_make_deck_from,
      List.count_eq_zero_of_not_mem hbe]
    decide
  · intro c hc
    rw [hcount c, hperm.count_eq, count_make_deck_from,
      List.count_eq_one_of_mem hnd hc]
    have hcb : c ≠ BULL := fun e => hbu (e ▸ hc)
    have hcb2 : c ≠ BEAR := fun e => hbe (e ▸ hc)
    have h2 : [BULL, BEAR].count c = 0 := by
      simp [List.count_cons, hcb, hcb2]
    rw [h2]
  · intro i hi
    rw [deal_getD n dealer deck hd hn3 i hi,
      ← extra_seat_mod dealer 1 n hd (by omega),
      ← extra_seat_mod dealer 2 n hd (by omega)]
    have hslice : ((deck.drop (9 * i)).take 9).length = 9 := by
      rw [List.length_take, List.length_drop]
      omega
    have hl1 : ((deck.drop (deck.length - 2)).take 1).length = 1 := by
      rw [List.length_take, List.length_drop]
      omega
    have hl2 : ((deck.drop (deck.length - 1)).take 1).length = 1 := by
      rw [List.length_take, List.length_drop]
      omega
    by_cases h1 : i = extra_seat dealer 1 n
    · by_cases h2 : i = extra_seat dealer 2 n
      · exact absurd (h1.symm.trans h2) (extra_seats_ne dealer n hd hn3)
      · rw [if_pos (Or.inl h1), if_pos h1, if_neg h2, List.append_nil,
          List.length_append, hslice, hl1]
    · by_cases h2 : i = extra_seat dealer 2 n
      · rw [if_pos (Or.inr h2), if_pos h2, if_neg h1, List.append_nil,
          List.length_append, hslice, hl2]
      · have hor : ¬(i = extra_seat dealer 1 n ∨ i = extra_seat dealer 2 n) := by
          rintro (h | h)
          · exact h1 h
          · exact h2 h
        rw [if_neg h1, if_neg h2, if_neg hor, List.append_nil, List.append_nil,
          hslice]

/-- Witness for C3 at three players, dealer seat 0, the unshuffled deck. -/
theorem c3_witness : DealSpec (commodity_keys.take 3) 3 0 (make_deck 3) :=
  c3_deal_invariant (commodity_keys.take 3) 3 0 (make_deck 3)
    (by decide) (by decide) (by decide) (by decide) (by decide) (by decide)
    (by decide) (List.Perm.refl (make_deck 3))

/-- One card move keeps the union multiset of all hands. -/
theorem move_card_flat {st st2 : GameState} {src dst : Nat} {c : Card}
    (hs : src < st.hands.length) (hd : dst < st.hands.length) (hnd : src ≠ dst)
    (h : move_card st src dst c = some st2) :
    (st2.hands.flatten : Multiset Card) = ↑st.hands.flatten := by
  unfold move_card at h
  split at h
  case isTrue hc =>
    simp only [Option.some.injEq] at h
    subst h
    simp only [setHand, getHand]
    rw [flatten_set_append _ dst [c] (by rw [List.length_set]; exact hd)]
    have hc' : c ∈ st.hands.getD src [] := hc
    have hstep : ([c] ++ ((st.hands.getD src []).erase c)).Perm
        (((st.hands.getD src []).erase c) ++ [c]) := List.perm_append_comm
    have hp : (st.hands.getD src []).Perm
        (((st.hands.getD src []).erase c) ++ [c]) :=
      (List.perm_cons_erase hc').trans hstep
    have hA : (↑(st.hands.getD src []) : Multiset Card) =
        ↑((st.hands.getD src []).erase c) + ↑[c] := by
      rw [Multiset.coe_add, Multiset.coe_eq_coe]
      exact hp
    have hsum := flatten_set_sum st.hands src ((st.hands.getD src []).erase c) hs
    rw [hA] at hsum
    apply add_right_cancel (b := (↑((st.hands.getD src []).erase c) : Multiset Card))
    have hac :
        (↑(st.hands.set src ((st.hands.getD src []).erase c)).flatten + ↑[c] +
            ↑((st.hands.getD src []).erase c) : Multiset Card) =
          ↑(st.hands.set src ((st.hands.getD src []).erase c)).flatten +
            (↑((st.hands.getD src []).erase c) + ↑[c]) := by
      abel
    rw [hac, hsum]
  case isFalse => exact Option.noConfusion h

/-- A transfer loop with the source actually holding the cards: it
completes, the source loses exactly those cards, the destination gains
them at the end of its hand, nothing else changes, and the union multiset
of all hands is unchanged. -/
theorem move_cards_spec :
    ∀ (cs : List Card) (st : GameState) (src dst : Nat),
      src ≠ dst → src < st.hands.length → dst < st.hands.length →
      still_has_cards (getHand st src) cs = true →
      ∃ st2, move_cards st src dst cs = .ok st2 ∧
        getHand st2 src = (getHand st src).diff cs ∧
        getHand st2 dst = getHand st dst ++ cs ∧
        (∀ q, q ≠ src → q ≠ dst → getHand st2 q = getHand st q) ∧
        st2.hands.length = st.hands.length ∧
        (st2.hands.flatten : Multiset Card) = ↑st.hands.flatten ∧
        st2.offers = st.offers ∧ st2.cycle = st.cycle ∧
        st2.inPlay = st.inPlay ∧ st2.scores = st.scores := by
  intro cs
  induction cs with
  | nil =>
    intro st src dst hnd hs hd hstill
    refine ⟨st, rfl, by simp, by simp, fun q _ _ => rfl, rfl, rfl, rfl, rfl, rfl, rfl⟩
  | cons c rest ih =>
    intro st src dst hnd hs hd hstill
    by_cases hc : c ∈ getHand st src
    case neg =>
      unfold still_has_cards at hstill
      rw [if_neg hc] at hstill
      exact (Bool.false_ne_true hstill).elim
    case pos =>
      unfold still_has_cards at hstill
      rw [if_pos hc] at hstill
      cases hm : move_card st src dst c with
      | none =>
        unfold move_card at hm
        rw [if_pos hc] at hm
        exact Option.noConfusion hm
      | some stm =>
        have hstm : stm = setHand (setHand st src ((getHand st src).erase c)) dst
            (getHand (setHand st src ((getHand st src).erase c)) dst ++ [c]) := by
          unfold move_card at hm
          rw [if_pos hc] at hm
          exact (Option.some.inj hm).symm
        have hsrc_stm : getHand stm src = (getHand st src).erase c := by
          rw [hstm]
          simp only [setHand, getHand]
          rw [getD_set_ne _ _ _ _ (fun e => hnd e.symm), getD_set_self _ _ _ hs]
        have hdst_stm : getHand stm dst = getHand st dst ++ [c] := by
          rw [hstm]
          simp only [setHand, getHand]
          rw [getD_set_self _ _ _ (by rw [List.length_set]; exact hd),
            getD_set_ne _ _ _ _ hnd]
        have hq_stm : ∀ q, q ≠ src → q ≠ dst → getHand stm q = getHand st q := by
          intro q hq1 hq2
          rw [hstm]
          simp only [setHand, getHand]
          rw [getD_set_ne _ _ _ _ (fun e => hq2 e.symm),
            getD_set_ne _ _ _ _ (fun e => hq1 e.symm)]
        have hlen_stm : stm.hands.length = st.hands.length := by
          rw [hstm]
          simp [setHand]
        have hoff_stm : stm.offers = st.offers := by
          rw [hstm]
          rfl
        have hcyc_stm : stm.cycle = st.cycle := by
          rw [hstm]
          rfl
        have hin_stm : stm.inPlay = st.inPlay := by
          rw [hstm]
          rfl
        have hsc_stm : stm.scores = st.scores := by
          rw [hstm]
          rfl
        have hflat_stm : (stm.hands.flatten : Multiset Card) = ↑st.hands.flatten :=
          move_card_flat hs hd hnd hm
        have hstill2 : still_has_cards (getHand stm src) rest = true := by
          rw [hsrc_stm]
          exact hstill
        obtain ⟨st2, hmv2, h1, h2, h3, h4, h5, h6, h7, h8, h9⟩ :=
          ih stm src dst hnd (by rw [hlen_stm]; exact hs)
            (by rw [hlen_stm]; exact hd) hstill2
        refine ⟨st2, ?_, ?_, ?_, ?_, ?_, ?_, ?_, ?_, ?_, ?_⟩
        · simp only [move_cards, hm]
          exact hmv2
        · rw [h1, hsrc_stm, List.diff_cons]
        · rw [h2, hdst_stm, List.append_assoc]
          rfl
        · intro q hq1 hq2
          rw [h3 q hq1 hq2, hq_stm q hq1 hq2]
        · rw [h4, hlen_stm]
        · rw [h5, hflat_stm]
        · rw [h6, hoff_stm]
        · rw [h7, hcyc_stm]
        · rw [h8, hin_stm]
        · rw [h9, hsc_stm]

/-- Growing a hand can only help the holding check. -/
theorem still_has_cards_append (hand extra cs : List Card)
    (h : still_has_cards hand cs = true) :
    still_has_cards (hand ++ extra) cs = true := by
  rw [still_has_cards_iff] at h ⊢
  intro c
  have h1 := h c
  rw [List.count_append]
  omega

/-- A `confirm` whose two sides hold the cards they supply conserves cards:
it completes, swaps exactly the two card sets, drops the offer and keeps
the union multiset of all hands. -/
theorem confirm_spec (st : GameState) (resp : Response) (rc cc : List Card)
    (hne2 : resp.player ≠ resp.offer.player)
    (hrp : resp.player < st.hands.length)
    (hip : resp.offer.player < st.hands.length)
    (hrc : still_has_cards (getHand st resp.player) rc = true)
    (hcc : still_has_cards (getHand st resp.offer.player) cc = true) :
    TradeConserveSpec st resp rc cc := by
  obtain ⟨stm, hmv1, m1, m2, m3, m4, m5, m6, m7, m8, m9⟩ :=
    move_cards_spec rc { st with offers := st.offers.erase resp.offer }
      resp.player resp.offer.player hne2 hrp hip hrc
  have hcc2 : still_has_cards (getHand stm resp.offer.player) cc = true := by
    rw [m2]
    exact still_has_cards_append _ _ _ hcc
  obtain ⟨st2, hmv2, n1, n2, n3, n4, n5, n6, n7, n8, n9⟩ :=
    move_cards_spec cc stm resp.offer.player resp.player (fun e => hne2 e.symm)
      (by rw [m4]; exact hip) (by rw [m4]; exact hrp) hcc2
  have hg : ∀ p : Nat,
      getHand { st with offers := st.offers.erase resp.offer } p = getHand st p :=
    fun p => rfl
  refine ⟨st2, ?_, ?_, ?_, ?_, ?_, ?_, ?_, ?_⟩
  · unfold confirm
    simp only [hmv1]
    exact hmv2
  · rw [n5, m5]
  · rw [n2, m1, hg]
  · rw [n1, m2, hg]
  · intro q hq1 hq2
    rw [n3 q hq2 hq1, m3 q hq1 hq2, hg]
  · rw [n6, m6]
  · rw [n9, m9]
  · rw [n4, m4]

/-- C6 — Card conservation: dealing puts exactly `9 * n + 2` cards (with
the one Bull and one Bear) into the hands; offers and bell rings do not
touch hands; a rejected response leaves the state untouched; and a
confirmed trade between two distinct seats that hold what they supply
swaps exactly the two card sets, leaving the union multiset of all hands
unchanged. -/
theorem c6_card_conservation (st : GameState) (resp : Response)
    (rc cc : List Card)
    (hne2 : resp.player ≠ resp.offer.player)
    (hrp : resp.player < st.hands.length)
    (hip : resp.offer.player < st.hands.length)
    (hrc : still_has_cards (getHand st resp.player) rc = true)
    (hcc : still_has_cards (getHand st resp.offer.player) cc = true) :
    ConserveSpec st resp rc cc := by
  refine ⟨?_, fun st' off => rfl, ?_,
    fun st' resp' rm s h => send_response_rejected_eq h,
    confirm_spec st resp rc cc hne2 hrp hip hrc hcc⟩
  · intro keys n dealer deck h3 hd hkl hnd hbu hbe hperm
    have hlen : deck.length = 9 * n + 2 := by
      rw [hperm.length_eq, length_make_deck_from, hkl]
      omega
    have hflat := deal_flatten n dealer deck hd h3 hlen
    have hcnt : ∀ c : Card,
        (deal_hands deck n dealer).flatten.count c = deck.count c := by
      intro c
      have h := congrArg (Multiset.count c) hflat
      simpa using h
    refine ⟨?_, ?_, ?_⟩
    · rw [← List.length_flatten]
      have h2 : (deal_hands deck n dealer).flatten.length = deck.length := by
        have h := congrArg Multiset.card hflat
        simpa using h
      rw [h2, hlen]
    · rw [hcnt BULL, hperm.count_eq, count_make_deck_from,
        List.count_eq_zero_of_not_mem hbu]
      decide
    · rw [hcnt BEAR, hperm.count_eq, count_make_deck_from,
        List.count_eq_zero_of_not_mem hbe]
      decide
  · intro st' p
    unfold ring_bell
    split
    · rfl
    · rfl

/-- Witness for C6: a one-for-one trade between seats 1 and 0. -/
theorem c6_witness :
    ConserveSpec
      { cycle := 0, inPlay := true,
        offers := [{ player := 0, quantity := 1, cycle := 0 }],
        hands := [[wheat, barley], [corn]], scores := [0, 0] }
      { offer := { player := 0, quantity := 1, cycle := 0 }, player := 1,
        cards := [corn], cycle := 0 }
      [corn] [wheat] :=
  c6_card_conservation _ _ [corn] [wheat]
    (by decide) (by decide) (by decide) (by decide) (by decide)

end Pit
